import Mathlib

/-!
Verification development for the `hpplot` HP-GL plotter streaming tool
(`src/hpplot/__main__.py`).

Byte strings are modelled as `List Nat` (one `Nat` per byte, values < 256
in practice).  Pure helpers of the source (`escape_seq`, `chunks`, the
regex rewrites of `main`, `query_buffer`) are embedded as executable Lean
functions; the transfer loop of `main` (lines 128-183) is embedded as a
trace-producing function over an explicit device-response model.

Recursions that are not structural in the source are implemented with an
explicit fuel argument (always called with fuel = length of the scanned
list, which is sufficient because every step consumes at least one byte);
this keeps every definition kernel-reducible.
-/

namespace Hpplot

/-! ### Byte classes -/

/-- ASCII decimal digit (regex class `\d` on bytes). -/
def isDigitB (b : Nat) : Bool := decide (48 ≤ b ∧ b ≤ 57)

/-- The character class `[a-zA-Z()]` of the escape-stripping regex. -/
def isEscLetter (c : Nat) : Bool :=
  decide ((65 ≤ c ∧ c ≤ 90) ∨ (97 ≤ c ∧ c ≤ 122) ∨ c = 40 ∨ c = 41)

/-- Bytes Python `int()` / `bytes.strip` treat as whitespace. -/
def isSpaceByte (b : Nat) : Bool :=
  decide (b = 32 ∨ b = 9 ∨ b = 10 ∨ b = 13 ∨ b = 11 ∨ b = 12)

/-! ### Decimal rendering (`str(int(...))` / `str(ord(...))`) -/

/-- Decimal digit bytes of a natural number, most significant first
(fuel-based; `natDigitsF n n` is always fully reduced since `n / 10`
shrinks much faster than the fuel). -/
def natDigitsF : Nat → Nat → List Nat
  | 0, n => [48 + n % 10]
  | f + 1, n => if n < 10 then [48 + n] else natDigitsF f (n / 10) ++ [48 + n % 10]

/-- Decimal digit bytes of a natural number, as produced by Python `str`. -/
def natDigits (n : Nat) : List Nat := natDigitsF n n

/-- Decimal rendering of an integer, as produced by Python `str`
(a leading `-` byte, 45, for negative values). -/
def intDecimal (n : Int) : List Nat :=
  if n < 0 then 45 :: natDigits n.natAbs else natDigits n.natAbs

theorem natDigitsF_digits : ∀ f n x, x ∈ natDigitsF f n → 48 ≤ x ∧ x ≤ 57 := by
  intro f
  induction f with
  | zero =>
    intro n x hx
    simp only [natDigitsF, List.mem_singleton] at hx
    subst hx
    omega
  | succ f ih =>
    intro n x hx
    simp only [natDigitsF] at hx
    split at hx
    · simp only [List.mem_singleton] at hx
      omega
    · rcases List.mem_append.1 hx with h | h
      · exact ih _ _ h
      · simp only [List.mem_singleton] at h
        omega

theorem natDigits_digits (n : Nat) : ∀ x ∈ natDigits n, 48 ≤ x ∧ x ≤ 57 :=
  fun x hx => natDigitsF_digits n n x hx

/-! ### `escape_seq` (source lines 13-38)

An argument of `escape_seq` is `None`, a (byte/unicode) string, or an
integer.  Python renders a falsy argument (`None`, empty string, the
integer 0) as an empty field, a nonempty string via `ord` (failing unless
it has exactly one character), and any other integer via `str(int(...))`. -/

inductive EscArg
  | none
  | str (s : List Nat)
  | int (n : Int)
deriving DecidableEq

/-- One argument position of `escape_seq` (the loop body, lines 30-36).
`Option.none` models the `TypeError` that `ord` raises on a string whose
length is not 1. -/
def renderArg : EscArg → Option (List Nat)
  | .none => some []
  | .str s =>
    if s.isEmpty then some [] else
      match s with
      | [c] => some (natDigits c)
      | _ => Option.none
  | .int n => if n = 0 then some [] else some (intDecimal n)

/-- All argument positions, in order (the `argstrs` list). -/
def renderArgs : List EscArg → Option (List (List Nat))
  | [] => some []
  | a :: t =>
    match renderArg a with
    | Option.none => Option.none
    | some r =>
      match renderArgs t with
      | Option.none => Option.none
      | some rs => some (r :: rs)

/-- Python `b';'.join(argstrs)` (byte 59 is `;`). -/
def joinSemi : List (List Nat) → List Nat
  | [] => []
  | [r] => r
  | r :: rs => r ++ 59 :: joinSemi rs

/-- `escape_seq(operation, *args)`: `ESC . <op>` with no terminator when no
arguments are supplied, otherwise `ESC . <op> <arg> (';' <arg>)* ':'`
(bytes 27 46 ... 58).  `Option.none` models the `TypeError` raised for a
non-convertible argument. -/
def escape_seq (operation : List Nat) (args : List EscArg) : Option (List Nat) :=
  if args = [] then some ([27, 46] ++ operation)
  else
    match renderArgs args with
    | Option.none => Option.none
    | some argstrs => some ([27, 46] ++ operation ++ joinSemi argstrs ++ [58])

/-- Escape-sequence bytes for the always-convertible control writes of
`main` (the `getD` default is never taken there). -/
def escBytes (operation : List Nat) (args : List EscArg) : List Nat :=
  (escape_seq operation args).getD []

/-- Per-argument rendering as stated by the amended claim C6: empty field
for absent/empty arguments and for the integer 0 (which Python treats as
falsy), decimal ASCII code for a single character, decimal text for any
other integer. -/
def specArgRender : EscArg → List Nat
  | .none => []
  | .str [] => []
  | .str [c] => natDigits c
  | .str _ => []
  | .int n => if n = 0 then [] else intDecimal n

/-- An argument Python can convert: any non-string, or a string with at
most one character (`ord` raises on longer strings). -/
def argConvertible : EscArg → Bool
  | .str s => s.length == 0 || s.length == 1
  | _ => true

theorem renderArg_eq_spec (a : EscArg) (hok : argConvertible a = true) :
    renderArg a = some (specArgRender a) := by
  cases a with
  | none => rfl
  | str s =>
    match s with
    | [] => rfl
    | [c] => rfl
    | c1 :: c2 :: t => simp [argConvertible] at hok
  | int n =>
    by_cases h : n = 0
    · subst h; rfl
    · simp [renderArg, specArgRender, h]

theorem renderArgs_eq_spec (args : List EscArg)
    (hok : args.all argConvertible = true) :
    renderArgs args = some (args.map specArgRender) := by
  induction args with
  | nil => rfl
  | cons a t ih =>
    rw [List.all_cons, Bool.and_eq_true] at hok
    have ha := renderArg_eq_spec a hok.1
    have ht := ih hok.2
    simp [renderArgs, ha, ht]

/-- Claim C7 (confirmed): with zero arguments `escape_seq` outputs exactly
the two-byte escape prefix followed by the operation code and appends no
`:` terminator; with one or more arguments, whenever the call succeeds the
output ends in the `:` byte (58). -/
theorem escape_seq_terminator (op : List Nat) (args : List EscArg) (out : List Nat)
    (h : escape_seq op args = some out) :
    (args = [] → out = [27, 46] ++ op) ∧
    (args ≠ [] → out.getLast? = some 58) := by
  constructor
  · intro he
    subst he
    simp [escape_seq] at h
    exact h.symm
  · intro hne
    simp only [escape_seq, if_neg hne] at h
    cases hr : renderArgs args with
    | none => rw [hr] at h; exact absurd h (by simp)
    | some argstrs =>
      rw [hr] at h
      simp only [Option.some.injEq] at h
      subst h
      rw [show [27, 46] ++ op ++ joinSemi argstrs ++ [58] =
            ([27, 46] ++ op ++ joinSemi argstrs) ++ [58] by simp,
          List.getLast?_concat]

theorem escape_seq_terminator_witness :
    escape_seq [75] [EscArg.int 5] = some [27, 46, 75, 53, 58] ∧
    List.getLast? ([27, 46, 75, 53, 58] : List Nat) = some 58 :=
  ⟨by decide,
   (escape_seq_terminator [75] [EscArg.int 5] [27, 46, 75, 53, 58]
      (by decide)).2 (by decide)⟩

/-- Claim C6, counterexample: the integer argument 0 is rendered as an
empty field (Python `not 0` is true), not as the decimal text `0`;
`escape_seq('B', 0)` yields `ESC . B :` instead of `ESC . B 0 :`. -/
theorem escape_seq_int_zero_empty :
    escape_seq [66] [EscArg.int 0] = some [27, 46, 66, 58] ∧
    ¬ escape_seq [66] [EscArg.int 0] = some ([27, 46, 66] ++ intDecimal 0 ++ [58]) := by
  decide

/-- Claim C6, amended (corrected): for every nonempty argument list of
convertible arguments (strings of length at most 1), each argument renders
as an empty field if absent, empty, or the integer 0; as the decimal text
of its ASCII code if a single character; and as the decimal text of its
value if a nonzero integer.  Rendered arguments are joined with `;` and
terminated with `:`. -/
theorem escape_seq_renders_args (op : List Nat) (args : List EscArg)
    (hne : args ≠ [])
    (hok : args.all argConvertible = true) :
    escape_seq op args =
      some ([27, 46] ++ op ++ joinSemi (args.map specArgRender) ++ [58]) := by
  simp [escape_seq, if_neg hne, renderArgs_eq_spec args hok]

theorem escape_seq_renders_args_witness :
    ([EscArg.int 80, EscArg.none, EscArg.str [19]] ≠ ([] : List EscArg)) ∧
    escape_seq [73] [EscArg.int 80, EscArg.none, EscArg.str [19]] =
      some ([27, 46] ++ [73] ++
        joinSemi ([EscArg.int 80, EscArg.none, EscArg.str [19]].map specArgRender) ++ [58]) :=
  ⟨by decide,
   escape_seq_renders_args [73] [EscArg.int 80, EscArg.none, EscArg.str [19]]
     (by decide) (by decide)⟩

/-! ### The HPGL rewrites of `main` (source lines 100-124)

`re.sub` on these patterns is deterministic: it scans left to right, at
each position either matches (the patterns need no backtracking because
the relevant character classes are disjoint) and continues after the
match without rescanning the replacement, or emits the byte and advances
one position. -/

/-- Split off the maximal leading run of decimal-digit bytes. -/
def takeDigits : List Nat → List Nat × List Nat
  | [] => ([], [])
  | b :: t =>
    if isDigitB b then
      let p := takeDigits t
      (b :: p.1, p.2)
    else ([], b :: t)

theorem takeDigits_append (s : List Nat) : (takeDigits s).1 ++ (takeDigits s).2 = s := by
  induction s with
  | nil => rfl
  | cons b t ih =>
    simp only [takeDigits]
    split
    · simpa using ih
    · rfl

theorem takeDigits_snd_length (s : List Nat) : (takeDigits s).2.length ≤ s.length := by
  induction s with
  | nil => simp [takeDigits]
  | cons b t ih =>
    simp only [takeDigits]
    split
    · simpa using Nat.le_succ_of_le ih
    · simp

/-- `takeDigits` on an all-digit block followed by a non-digit byte. -/
theorem takeDigits_of_digits (d : List Nat) (hd : ∀ x ∈ d, isDigitB x = true) :
    ∀ t, (t = [] ∨ ∃ y t2, t = y :: t2 ∧ isDigitB y = false) →
      takeDigits (d ++ t) = (d, t) := by
  induction d with
  | nil =>
    intro t ht
    rcases ht with h | ⟨y, t2, rfl, hy⟩
    · subst h; rfl
    · simp [takeDigits, hy]
  | cons b d2 ih =>
    intro t ht
    have hb : isDigitB b = true := hd b (by simp)
    have := ih (fun x hx => hd x (by simp [hx])) t ht
    simp [takeDigits, hb, this]

/-! #### Escape-sequence stripping (line 105)

`re.sub(rb'\x1b\.[a-zA-Z\(\)](\d*[;:])*', b'', hpgl)`. -/

/-- Greedily consume `(\d*[;:])*`: repeat { maximal digit run, then `;` or
`:` }; on failure the partially consumed iteration is given back. -/
def escArgsF : Nat → List Nat → List Nat
  | 0, s => s
  | f + 1, s =>
    let p := takeDigits s
    match p.2 with
    | x :: r => if x = 59 ∨ x = 58 then escArgsF f r else s
    | [] => s

def escArgs (s : List Nat) : List Nat := escArgsF s.length s

/-- Try the escape-sequence pattern at the head of the buffer; on a match
return the remainder after the matched text. -/
def matchEsc : List Nat → Option (List Nat)
  | a :: b :: c :: rest =>
    if a = 27 ∧ b = 46 ∧ isEscLetter c then some (escArgs rest) else Option.none
  | _ => Option.none

/-- One left-to-right `re.sub` pass deleting every non-overlapping match
of the escape-sequence pattern. -/
def stripEscapesF : Nat → List Nat → List Nat
  | _, [] => []
  | 0, s => s
  | f + 1, b :: t =>
    match matchEsc (b :: t) with
    | some r => stripEscapesF f r
    | Option.none => b :: stripEscapesF f t

def stripEscapes (s : List Nat) : List Nat := stripEscapesF s.length s

/-- Claim C4 (code bug): escape-sequence stripping is not idempotent.  On
the crafted input `ESC . ESC . A 1 ; B 2 ;` the single `re.sub` pass
removes only `ESC . A 1 ;` (the inner bytes), leaving `ESC . B 2 ;` —
itself a complete escape sequence, which the code's own comment says must
not survive — and a second pass removes it. -/
theorem stripEscapes_not_idempotent :
    stripEscapes [27, 46, 27, 46, 65, 49, 59, 66, 50, 59] = [27, 46, 66, 50, 59] ∧
    stripEscapes (stripEscapes [27, 46, 27, 46, 65, 49, 59, 66, 50, 59]) = [] ∧
    stripEscapes (stripEscapes [27, 46, 27, 46, 65, 49, 59, 66, 50, 59]) ≠
      stripEscapes [27, 46, 27, 46, 65, 49, 59, 66, 50, 59] := by
  decide

/-! #### Velocity override (lines 107-120) -/

/-- Try `VS\d+(\.\d+)?;` (case-insensitive) at the head; on a match return
the remainder.  No backtracking can succeed because the digit class is
disjoint from `.` and `;`. -/
def matchVS : List Nat → Option (List Nat)
  | v :: w :: t =>
    if (v = 86 ∨ v = 118) ∧ (w = 83 ∨ w = 115) then
      let p := takeDigits t
      if p.1 = [] then Option.none
      else
        match p.2 with
        | x :: r =>
          if x = 59 then some r
          else
            if x = 46 then
              let q := takeDigits r
              if q.1 = [] then Option.none
              else
                match q.2 with
                | y :: r2 => if y = 59 then some r2 else Option.none
                | [] => Option.none
            else Option.none
        | [] => Option.none
    else Option.none
  | _ => Option.none

theorem matchVS_length : ∀ s r, matchVS s = some r → r.length < s.length := by
  intro s r h
  match s with
  | [] => simp [matchVS] at h
  | [v] => simp [matchVS] at h
  | v :: w :: t =>
    have hlen := takeDigits_snd_length t
    simp only [matchVS] at h
    split at h
    · split at h
      · simp at h
      · split at h
        · rename_i x r0 heq
          have h0 : r0.length < t.length ∨ r0.length + 1 = t.length := by
            have hx : (x :: r0).length ≤ t.length := by rw [← heq]; exact hlen
            simp only [List.length_cons] at hx
            omega
          split at h
          · injection h with h
            subst h
            simp only [List.length_cons]
            omega
          · split at h
            · have hlen2 := takeDigits_snd_length r0
              split at h
              · simp at h
              · split at h
                · rename_i y r2 heq2
                  have h1 : r2.length < r0.length ∨ r2.length + 1 = r0.length := by
                    have hy : (y :: r2).length ≤ r0.length := by rw [← heq2]; exact hlen2
                    simp only [List.length_cons] at hy
                    omega
                  split at h
                  · injection h with h
                    subst h
                    simp only [List.length_cons]
                    omega
                  · simp at h
                · simp at h
            · simp at h
        · simp at h
    · simp at h

/-- `re.sub(rb'VS\d+(\.\d+)?;', velocity_cmd, hpgl, flags=re.IGNORECASE)`:
replace every explicit velocity-set command with the canonical command
(the replacement text is not rescanned). -/
def subVSF (vcmd : List Nat) : Nat → List Nat → List Nat
  | _, [] => []
  | 0, s => s
  | f + 1, b :: t =>
    match matchVS (b :: t) with
    | some r => vcmd ++ subVSF vcmd f r
    | Option.none => b :: subVSF vcmd f t

def subVS (vcmd s : List Nat) : List Nat := subVSF vcmd s.length s

/-- Try `(IN|DF);` (case-insensitive) at the head; on a match return the
two captured mnemonic bytes (original case) and the remainder. -/
def matchINDF : List Nat → Option (Nat × Nat × List Nat)
  | a :: b :: c :: r =>
    if c = 59 ∧ (((a = 73 ∨ a = 105) ∧ (b = 78 ∨ b = 110)) ∨
                 ((a = 68 ∨ a = 100) ∧ (b = 70 ∨ b = 102)))
    then some (a, b, r) else Option.none
  | _ => Option.none

/-- `re.sub(rb'(IN|DF);', rb'\1' + velocity_cmd, hpgl, flags=re.IGNORECASE)`:
each `IN;`/`DF;` becomes the captured mnemonic (the `;` is consumed by the
match and not re-emitted) immediately followed by the canonical command. -/
def subINDFF (vcmd : List Nat) : Nat → List Nat → List Nat
  | _, [] => []
  | 0, s => s
  | f + 1, b :: t =>
    match matchINDF (b :: t) with
    | some (x, y, r) => x :: y :: (vcmd ++ subINDFF vcmd f r)
    | Option.none => b :: subINDFF vcmd f t

def subINDF (vcmd s : List Nat) : List Nat := subINDFF vcmd s.length s

/-- The four fraction digit bytes of `'{:.4f}'.format(v)`; `fr` is the
fraction rounded to four decimal places, scaled by 10000 (so `fr < 10000`;
the `% 10` on the leading digit only guards the out-of-range case). -/
def pad4 (fr : Nat) : List Nat :=
  [48 + fr / 1000 % 10, 48 + fr / 100 % 10, 48 + fr / 10 % 10, 48 + fr % 10]

/-- The canonical velocity command `'VS{:.4f};'.format(v)` for a
nonnegative velocity with integer part `ip` and fraction digits `fr`. -/
def velocityCmd (ip fr : Nat) : List Nat :=
  [86, 83] ++ natDigits ip ++ [46] ++ pad4 fr ++ [59]

/-- The three velocity rewrites of lines 110-120, in source order:
replace explicit `VS` commands, rewrite `IN;`/`DF;`, prepend once. -/
def velocityOverride (vcmd s : List Nat) : List Nat :=
  vcmd ++ subINDF vcmd (subVS vcmd s)

/-- The `if args.velocity:` stage of `main` (line 107).  The velocity is
an optional float modelled as an optional rational (every finite float
value is rational; Python float truthiness makes both `None` and `0.0`
skip the stage).  `fmt` abstracts `'VS{:.4f};'.format`, whose output shape
is `velocityCmd`. -/
def velocityStage (velocity : Option ℚ) (fmt : ℚ → List Nat) (s : List Nat) : List Nat :=
  match velocity with
  | Option.none => s
  | some v => if v = 0 then s else velocityOverride (fmt v) s

/-- Claim C10 (confirmed): a supplied velocity of 0.0 is falsy in Python,
so the velocity-override stage performs no rewrite at all: nothing is
replaced, inserted after `IN;`/`DF;`, or prepended. -/
theorem velocityStage_zero_identity (fmt : ℚ → List Nat) (s : List Nat) :
    velocityStage (some 0) fmt s = s := by
  simp [velocityStage]

/-- Claim C1, counterexample: with velocity 1.0 and input `VS1;`, the
output of the velocity-override stage begins with two consecutive
canonical velocity-set commands (the explicit command is replaced and the
canonical command is still prepended), so it is false that exactly one
velocity-set command appears at the very start of the output. -/
theorem velocity_start_duplicated :
    matchVS (velocityOverride (velocityCmd 1 0) [86, 83, 49, 59]) =
      some (velocityCmd 1 0) ∧
    matchVS (velocityCmd 1 0) = some [] := by
  decide

/-! ### Scanner equations

The fuel-based scanners are invariant under any sufficient fuel, which
yields the natural unfolding equations for `subVS` and `subINDF`. -/

theorem subVSF_fuel (vcmd : List Nat) :
    ∀ f g s, s.length ≤ f → s.length ≤ g → subVSF vcmd f s = subVSF vcmd g s := by
  intro f
  induction f with
  | zero =>
    intro g s hf hg
    have hs : s = [] := List.eq_nil_of_length_eq_zero (Nat.le_zero.mp hf)
    subst hs
    cases g <;> rfl
  | succ f ih =>
    intro g s hf hg
    match s with
    | [] => cases g <;> rfl
    | b :: t =>
      match g with
      | 0 => simp at hg
      | g + 1 =>
        simp only [List.length_cons] at hf hg
        cases hm : matchVS (b :: t) with
        | some r =>
          have hr := matchVS_length _ _ hm
          simp only [List.length_cons] at hr
          simp only [subVSF, hm]
          rw [ih g r (by omega) (by omega)]
        | none =>
          simp only [subVSF, hm]
          rw [ih g t (by omega) (by omega)]

theorem subVS_nil (vcmd : List Nat) : subVS vcmd [] = [] := rfl

theorem subVS_match (vcmd : List Nat) (bh : Nat) (t r : List Nat)
    (hm : matchVS (bh :: t) = some r) :
    subVS vcmd (bh :: t) = vcmd ++ subVS vcmd r := by
  have hr := matchVS_length _ _ hm
  simp only [List.length_cons] at hr
  simp only [subVS, List.length_cons, subVSF, hm]
  rw [subVSF_fuel vcmd t.length r.length r (by omega) (Nat.le_refl _)]

theorem subVS_skip (vcmd : List Nat) (bh : Nat) (t : List Nat)
    (hm : matchVS (bh :: t) = Option.none) :
    subVS vcmd (bh :: t) = bh :: subVS vcmd t := by
  simp only [subVS, List.length_cons, subVSF, hm]

theorem matchVS_none_of_head (bh : Nat) (t : List Nat) (hb : bh ≠ 86 ∧ bh ≠ 118) :
    matchVS (bh :: t) = Option.none := by
  match t with
  | [] => rfl
  | w :: t2 =>
    have hc : ¬((bh = 86 ∨ bh = 118) ∧ (w = 83 ∨ w = 115)) := by
      rintro ⟨h1, h2⟩
      rcases h1 with rfl | rfl
      · exact hb.1 rfl
      · exact hb.2 rfl
    simp [matchVS, hc]

theorem subVS_append_passthrough (vcmd bs rest : List Nat)
    (h : ∀ x ∈ bs, x ≠ 86 ∧ x ≠ 118) :
    subVS vcmd (bs ++ rest) = bs ++ subVS vcmd rest := by
  induction bs with
  | nil => simp
  | cons b bs2 ih =>
    have hm := matchVS_none_of_head b (bs2 ++ rest) (h b (by simp))
    rw [List.cons_append, subVS_skip vcmd b (bs2 ++ rest) hm,
        ih (fun x hx => h x (by simp [hx])), List.cons_append]

theorem matchINDF_some : ∀ s a b r, matchINDF s = some (a, b, r) →
    s = a :: b :: 59 :: r ∧
    (((a = 73 ∨ a = 105) ∧ (b = 78 ∨ b = 110)) ∨
     ((a = 68 ∨ a = 100) ∧ (b = 70 ∨ b = 102))) := by
  intro s a b r h
  match s with
  | [] => simp [matchINDF] at h
  | [x] => simp [matchINDF] at h
  | [x, y] => simp [matchINDF] at h
  | x :: y :: c :: t =>
    simp only [matchINDF] at h
    split at h
    · rename_i hc
      injection h with h
      obtain ⟨rfl, rfl, rfl⟩ : x = a ∧ y = b ∧ t = r := by
        simpa using h
      exact ⟨by rw [hc.1], hc.2⟩
    · simp at h

theorem matchINDF_none_of_head (bh : Nat) (t : List Nat)
    (hb : bh ≠ 73 ∧ bh ≠ 105 ∧ bh ≠ 68 ∧ bh ≠ 100) :
    matchINDF (bh :: t) = Option.none := by
  match t with
  | [] => rfl
  | [y] => rfl
  | y :: c :: t2 =>
    have hc : ¬(c = 59 ∧ (((bh = 73 ∨ bh = 105) ∧ (y = 78 ∨ y = 110)) ∨
                          ((bh = 68 ∨ bh = 100) ∧ (y = 70 ∨ y = 102)))) := by
      rintro ⟨-, (⟨h1, -⟩ | ⟨h1, -⟩)⟩
      · rcases h1 with rfl | rfl
        · exact hb.1 rfl
        · exact hb.2.1 rfl
      · rcases h1 with rfl | rfl
        · exact hb.2.2.1 rfl
        · exact hb.2.2.2 rfl
    simp [matchINDF, hc]

theorem subINDFF_fuel (vcmd : List Nat) :
    ∀ f g s, s.length ≤ f → s.length ≤ g → subINDFF vcmd f s = subINDFF vcmd g s := by
  intro f
  induction f with
  | zero =>
    intro g s hf hg
    have hs : s = [] := List.eq_nil_of_length_eq_zero (Nat.le_zero.mp hf)
    subst hs
    cases g <;> rfl
  | succ f ih =>
    intro g s hf hg
    match s with
    | [] => cases g <;> rfl
    | b :: t =>
      match g with
      | 0 => simp at hg
      | g + 1 =>
        simp only [List.length_cons] at hf hg
        cases hm : matchINDF (b :: t) with
        | some abr =>
          obtain ⟨a, b2, r⟩ := abr
          have hs := (matchINDF_some _ _ _ _ hm).1
          have hr : r.length + 2 = t.length := by
            have := congrArg List.length hs
            simp only [List.length_cons] at this
            omega
          simp only [subINDFF, hm]
          rw [ih g r (by omega) (by omega)]
        | none =>
          simp only [subINDFF, hm]
          rw [ih g t (by omega) (by omega)]

theorem subINDF_match (vcmd : List Nat) (bh : Nat) (t : List Nat) (a b2 : Nat) (r : List Nat)
    (hm : matchINDF (bh :: t) = some (a, b2, r)) :
    subINDF vcmd (bh :: t) = a :: b2 :: (vcmd ++ subINDF vcmd r) := by
  have hs := (matchINDF_some _ _ _ _ hm).1
  have hr : r.length + 2 = t.length := by
    have := congrArg List.length hs
    simp only [List.length_cons] at this
    omega
  simp only [subINDF, List.length_cons, subINDFF, hm]
  rw [subINDFF_fuel vcmd t.length r.length r (by omega) (Nat.le_refl _)]

theorem subINDF_skip (vcmd : List Nat) (bh : Nat) (t : List Nat)
    (hm : matchINDF (bh :: t) = Option.none) :
    subINDF vcmd (bh :: t) = bh :: subINDF vcmd t := by
  simp only [subINDF, List.length_cons, subINDFF, hm]

theorem subINDF_append_passthrough (vcmd bs rest : List Nat)
    (h : ∀ x ∈ bs, x ≠ 73 ∧ x ≠ 105 ∧ x ≠ 68 ∧ x ≠ 100) :
    subINDF vcmd (bs ++ rest) = bs ++ subINDF vcmd rest := by
  induction bs with
  | nil => simp
  | cons b bs2 ih =>
    have hm := matchINDF_none_of_head b (bs2 ++ rest) (h b (by simp))
    rw [List.cons_append, subINDF_skip vcmd b (bs2 ++ rest) hm,
        ih (fun x hx => h x (by simp [hx])), List.cons_append]

/-! ### Command-level characterisation of the velocity override (claim C1) -/

/-- The optional fraction part `(\.\d+)?` of an explicit velocity command. -/
def fracRender : Option (List Nat) → List Nat
  | Option.none => []
  | some e => 46 :: e

/-- A stream element for the velocity-override characterisation: an
explicit velocity-set command `VS<digits>[.<digits>];`, an initialize or
default command `IN;`/`DF;` (any letter case), or neutral text. -/
inductive HCmd
  | vs (v w : Nat) (d : List Nat) (fr : Option (List Nat))
  | indf (a b : Nat)
  | other (bs : List Nat)
deriving DecidableEq

def renderCmd : HCmd → List Nat
  | .vs v w d fr => v :: w :: (d ++ fracRender fr ++ [59])
  | .indf a b => [a, b, 59]
  | .other bs => bs

/-- Well-formedness: the letters have the right case variants, digit runs
are nonempty digit runs, and neutral text contains none of the letters
`V/v/I/i/D/d` (so no command pattern can begin inside it). -/
def wfCmd : HCmd → Bool
  | .vs v w d fr =>
    (v == 86 || v == 118) && (w == 83 || w == 115) && (!d.isEmpty) && d.all isDigitB &&
      (match fr with
       | Option.none => true
       | some e => (!e.isEmpty) && e.all isDigitB)
  | .indf a b =>
    ((a == 73 || a == 105) && (b == 78 || b == 110)) ||
    ((a == 68 || a == 100) && (b == 70 || b == 102))
  | .other bs =>
    bs.all fun x => !(x == 86 || x == 118 || x == 73 || x == 105 || x == 68 || x == 100)

/-- Image of a stream element under the first rewrite (`VS` replacement). -/
def midCmd (vcmd : List Nat) : HCmd → List Nat
  | .vs _ _ _ _ => vcmd
  | .indf a b => [a, b, 59]
  | .other bs => bs

/-- Image of a stream element after both rewrites: explicit velocity
commands are replaced by the canonical command, `IN;`/`DF;` becomes the
mnemonic immediately followed by the canonical command, neutral text is
untouched. -/
def overridden (vcmd : List Nat) : HCmd → List Nat
  | .vs _ _ _ _ => vcmd
  | .indf a b => a :: b :: vcmd
  | .other bs => bs

theorem matchVS_render (v w : Nat) (d : List Nat) (fr : Option (List Nat)) (rest : List Nat)
    (hv : v = 86 ∨ v = 118) (hw : w = 83 ∨ w = 115)
    (hd : d ≠ []) (hdd : ∀ x ∈ d, isDigitB x = true)
    (hfr : ∀ e, fr = some e → e ≠ [] ∧ ∀ x ∈ e, isDigitB x = true) :
    matchVS (v :: w :: (d ++ fracRender fr ++ 59 :: rest)) = some rest := by
  cases fr with
  | none =>
    have ht : takeDigits (d ++ 59 :: rest) = (d, 59 :: rest) :=
      takeDigits_of_digits d hdd _ (Or.inr ⟨59, rest, rfl, by decide⟩)
    simp only [fracRender, List.append_nil]
    simp only [matchVS, ht, if_pos (And.intro hv hw)]
    simp [hd]
  | some e =>
    obtain ⟨he, hee⟩ := hfr e rfl
    have ht : takeDigits (d ++ 46 :: (e ++ 59 :: rest)) = (d, 46 :: (e ++ 59 :: rest)) :=
      takeDigits_of_digits d hdd _ (Or.inr ⟨46, e ++ 59 :: rest, rfl, by decide⟩)
    have ht2 : takeDigits (e ++ 59 :: rest) = (e, 59 :: rest) :=
      takeDigits_of_digits e hee _ (Or.inr ⟨59, rest, rfl, by decide⟩)
    have harr : d ++ fracRender (some e) ++ 59 :: rest = d ++ 46 :: (e ++ 59 :: rest) := by
      simp [fracRender]
    rw [harr]
    simp only [matchVS, ht, if_pos (And.intro hv hw)]
    simp [hd, he, ht2]

theorem velocityCmd_bytes (ip fr : Nat) :
    ∀ x ∈ velocityCmd ip fr, x = 86 ∨ x = 83 ∨ x = 46 ∨ x = 59 ∨ (48 ≤ x ∧ x ≤ 57) := by
  intro x hx
  simp only [velocityCmd, List.append_assoc, List.mem_append] at hx
  rcases hx with hx | hx | hx | hx | hx
  · rcases (by simpa using hx : x = 86 ∨ x = 83) with rfl | rfl
    · exact Or.inl rfl
    · exact Or.inr (Or.inl rfl)
  · exact Or.inr (Or.inr (Or.inr (Or.inr (natDigits_digits ip x hx))))
  · have hx2 : x = 46 := by simpa using hx
    subst hx2
    exact Or.inr (Or.inr (Or.inl rfl))
  · have hd : 48 ≤ x ∧ x ≤ 57 := by
      simp only [pad4, List.mem_cons, List.not_mem_nil, or_false] at hx
      rcases hx with rfl | rfl | rfl | rfl <;> constructor <;> omega
    exact Or.inr (Or.inr (Or.inr (Or.inr hd)))
  · have hx2 : x = 59 := by simpa using hx
    subst hx2
    exact Or.inr (Or.inr (Or.inr (Or.inl rfl)))

theorem velocityCmd_no_id (ip fr : Nat) :
    ∀ x ∈ velocityCmd ip fr, x ≠ 73 ∧ x ≠ 105 ∧ x ≠ 68 ∧ x ≠ 100 := by
  intro x hx
  rcases velocityCmd_bytes ip fr x hx with h | h | h | h | h <;>
    exact ⟨by omega, by omega, by omega, by omega⟩

theorem wfCmd_vs (v w : Nat) (d : List Nat) (fr : Option (List Nat))
    (h : wfCmd (HCmd.vs v w d fr) = true) :
    (v = 86 ∨ v = 118) ∧ (w = 83 ∨ w = 115) ∧ d ≠ [] ∧
    (∀ x ∈ d, isDigitB x = true) ∧
    (∀ e, fr = some e → e ≠ [] ∧ ∀ x ∈ e, isDigitB x = true) := by
  cases fr with
  | none =>
    simp only [wfCmd, Bool.and_eq_true, Bool.or_eq_true, beq_iff_eq,
      Bool.not_eq_true', List.isEmpty_eq_false, List.all_eq_true] at h
    exact ⟨h.1.1.1.1, h.1.1.1.2, h.1.1.2, h.1.2, by intro e he; simp at he⟩
  | some e =>
    simp only [wfCmd, Bool.and_eq_true, Bool.or_eq_true, beq_iff_eq,
      Bool.not_eq_true', List.isEmpty_eq_false, List.all_eq_true] at h
    refine ⟨h.1.1.1.1, h.1.1.1.2, h.1.1.2, h.1.2, ?_⟩
    intro e2 he2
    injection he2 with he2
    subst he2
    exact ⟨h.2.1, h.2.2⟩

theorem wfCmd_indf (a b : Nat) (h : wfCmd (HCmd.indf a b) = true) :
    ((a = 73 ∨ a = 105) ∧ (b = 78 ∨ b = 110)) ∨
    ((a = 68 ∨ a = 100) ∧ (b = 70 ∨ b = 102)) := by
  simpa only [wfCmd, Bool.or_eq_true, Bool.and_eq_true, beq_iff_eq] using h

theorem wfCmd_other (bs : List Nat) (h : wfCmd (HCmd.other bs) = true) :
    ∀ x ∈ bs, x ≠ 86 ∧ x ≠ 118 ∧ x ≠ 73 ∧ x ≠ 105 ∧ x ≠ 68 ∧ x ≠ 100 := by
  intro x hx
  simp only [wfCmd, List.all_eq_true] at h
  have h2 := h x hx
  simp only [Bool.not_eq_true', Bool.or_eq_false_iff, beq_eq_false_iff_ne] at h2
  exact ⟨h2.1.1.1.1.1, h2.1.1.1.1.2, h2.1.1.1.2, h2.1.1.2, h2.1.2, h2.2⟩

theorem indf_bytes_not_vs (a b : Nat)
    (hab : ((a = 73 ∨ a = 105) ∧ (b = 78 ∨ b = 110)) ∨
           ((a = 68 ∨ a = 100) ∧ (b = 70 ∨ b = 102))) :
    ∀ x ∈ [a, b, 59], x ≠ 86 ∧ x ≠ 118 := by
  intro x hx
  simp only [List.mem_cons, List.not_mem_nil, or_false] at hx
  rcases hx with rfl | rfl | rfl
  · rcases hab with ⟨h1, -⟩ | ⟨h1, -⟩ <;> rcases h1 with rfl | rfl <;>
      exact ⟨by omega, by omega⟩
  · rcases hab with ⟨-, h2⟩ | ⟨-, h2⟩ <;> rcases h2 with rfl | rfl <;>
      exact ⟨by omega, by omega⟩
  · exact ⟨by omega, by omega⟩

/-- First rewrite at the command level: `re.sub` of the `VS` pattern
replaces exactly the explicit velocity-set commands. -/
theorem subVS_commands (vcmd : List Nat) (cs : List HCmd)
    (hwf : cs.all wfCmd = true) :
    subVS vcmd ((cs.map renderCmd).flatten) = (cs.map (midCmd vcmd)).flatten := by
  induction cs with
  | nil => rfl
  | cons c cs2 ih =>
    rw [List.all_cons, Bool.and_eq_true] at hwf
    have ihh := ih hwf.2
    have hw1 := hwf.1
    cases c with
    | vs v w d fr =>
      obtain ⟨hv, hw, hd, hdd, hfr⟩ := wfCmd_vs v w d fr hw1
      have hm := matchVS_render v w d fr ((cs2.map renderCmd).flatten) hv hw hd hdd hfr
      simp only [List.map_cons, List.flatten_cons, renderCmd, midCmd]
      rw [show (v :: w :: (d ++ fracRender fr ++ [59])) ++ (cs2.map renderCmd).flatten =
            v :: (w :: (d ++ fracRender fr ++ 59 :: (cs2.map renderCmd).flatten)) by simp,
          subVS_match vcmd v _ _ hm, ihh]
    | indf a b =>
      have hpass := indf_bytes_not_vs a b (wfCmd_indf a b hw1)
      simp only [List.map_cons, List.flatten_cons, renderCmd, midCmd]
      rw [subVS_append_passthrough vcmd [a, b, 59] _ hpass, ihh]
    | other bs =>
      have hpass : ∀ x ∈ bs, x ≠ 86 ∧ x ≠ 118 := by
        intro x hx
        have h2 := wfCmd_other bs hw1 x hx
        exact ⟨h2.1, h2.2.1⟩
      simp only [List.map_cons, List.flatten_cons, renderCmd, midCmd]
      rw [subVS_append_passthrough vcmd bs _ hpass, ihh]

/-- Second rewrite at the command level: `re.sub` of the `(IN|DF);`
pattern rewrites exactly the initialize/default commands, leaving the
canonical velocity commands (which contain no `I`/`D` letters) alone. -/
theorem subINDF_commands (vcmd : List Nat)
    (hnoid : ∀ x ∈ vcmd, x ≠ 73 ∧ x ≠ 105 ∧ x ≠ 68 ∧ x ≠ 100)
    (cs : List HCmd) (hwf : cs.all wfCmd = true) :
    subINDF vcmd ((cs.map (midCmd vcmd)).flatten) = (cs.map (overridden vcmd)).flatten := by
  induction cs with
  | nil => rfl
  | cons c cs2 ih =>
    rw [List.all_cons, Bool.and_eq_true] at hwf
    have ihh := ih hwf.2
    have hw1 := hwf.1
    cases c with
    | vs v w d fr =>
      simp only [List.map_cons, List.flatten_cons, midCmd, overridden]
      rw [subINDF_append_passthrough vcmd vcmd _ hnoid, ihh]
    | indf a b =>
      have hab := wfCmd_indf a b hw1
      have hm : matchINDF (a :: b :: 59 :: (cs2.map (midCmd vcmd)).flatten) =
          some (a, b, (cs2.map (midCmd vcmd)).flatten) := by
        simp only [matchINDF]
        rw [if_pos ⟨trivial, hab⟩]
      simp only [List.map_cons, List.flatten_cons, midCmd, overridden]
      rw [show ([a, b, 59] : List Nat) ++ (cs2.map (midCmd vcmd)).flatten =
            a :: (b :: 59 :: (cs2.map (midCmd vcmd)).flatten) by simp,
          subINDF_match vcmd a _ a b _ hm, ihh]
      simp
    | other bs =>
      have hpass : ∀ x ∈ bs, x ≠ 73 ∧ x ≠ 105 ∧ x ≠ 68 ∧ x ≠ 100 := by
        intro x hx
        have h2 := wfCmd_other bs hw1 x hx
        exact ⟨h2.2.2.1, h2.2.2.2.1, h2.2.2.2.2.1, h2.2.2.2.2.2⟩
      simp only [List.map_cons, List.flatten_cons, midCmd, overridden]
      rw [subINDF_append_passthrough vcmd bs _ hpass, ihh]

/-- Claim C1, amended (corrected): for a supplied velocity (integer part
`ip`, four fraction digits `fr`) and any stream that is a mix of explicit
velocity-set commands, `IN;`/`DF;` commands and neutral text (containing
no `V/I/D` letters), the velocity-override stage produces the canonical
command `VS<ip>.<fr>;` prepended exactly once, followed by the stream
with every explicit velocity-set command replaced by the canonical one
(not duplicated) and every `IN;`/`DF;` rewritten to its mnemonic
immediately followed by the canonical command (the mnemonic's `;` is
consumed by the rewrite, and a stream that begins with a velocity-set or
`IN;`/`DF;` command makes more than one velocity-set command appear at
the start of the output). -/
theorem velocityOverride_commands (ip fr : Nat) (cs : List HCmd)
    (hwf : cs.all wfCmd = true) :
    velocityOverride (velocityCmd ip fr) ((cs.map renderCmd).flatten) =
      velocityCmd ip fr ++ (cs.map (overridden (velocityCmd ip fr))).flatten := by
  unfold velocityOverride
  rw [subVS_commands _ _ hwf, subINDF_commands _ (velocityCmd_no_id ip fr) _ hwf]

theorem velocityOverride_commands_witness :
    ([HCmd.indf 73 78, HCmd.vs 86 83 [53] Option.none,
        HCmd.other [80, 85, 59]].all wfCmd = true) ∧
    velocityOverride (velocityCmd 2 5000)
        (([HCmd.indf 73 78, HCmd.vs 86 83 [53] Option.none,
           HCmd.other [80, 85, 59]].map renderCmd).flatten) =
      velocityCmd 2 5000 ++
        (([HCmd.indf 73 78, HCmd.vs 86 83 [53] Option.none,
           HCmd.other [80, 85, 59]].map (overridden (velocityCmd 2 5000))).flatten) :=
  ⟨by decide,
   velocityOverride_commands 2 5000
     [HCmd.indf 73 78, HCmd.vs 86 83 [53] Option.none, HCmd.other [80, 85, 59]]
     (by decide)⟩

/-! ### `chunks` (source lines 60-63) -/

/-- `for i in range(0, len(lst), n): yield lst[i:i+n]`, fuel-based (each
step consumes `n ≥ 1` bytes, so fuel `lst.length` suffices). -/
def chunksF : Nat → List Nat → Nat → List (List Nat)
  | _, [], _ => []
  | 0, l, _ => [l]
  | f + 1, l, n => l.take n :: chunksF f (l.drop n) n

/-- `chunks(lst, n)` as a list of blocks.  A block size of 0 makes the
Python `range` raise `ValueError` before yielding anything; the CLI
default (80) and every claim assume a positive block size. -/
def chunks (lst : List Nat) (n : Nat) : List (List Nat) :=
  if n = 0 then [] else chunksF lst.length lst n

theorem chunksF_spec (n : Nat) (hn : 0 < n) :
    ∀ f l, l.length ≤ f →
      (chunksF f l n).flatten = l ∧
      (∀ b ∈ chunksF f l n, b.length ≤ n) ∧
      (∀ b ∈ (chunksF f l n).dropLast, b.length = n) := by
  intro f
  induction f with
  | zero =>
    intro l hl
    have : l = [] := List.eq_nil_of_length_eq_zero (Nat.le_zero.mp hl)
    subst this
    exact ⟨rfl, by simp [chunksF], by simp [chunksF]⟩
  | succ f ih =>
    intro l hl
    match l with
    | [] => exact ⟨rfl, by simp [chunksF], by simp [chunksF]⟩
    | x :: t =>
      have hdrop : (List.drop n (x :: t)).length ≤ f := by
        simp only [List.length_drop, List.length_cons] at *
        omega
      obtain ⟨ih1, ih2, ih3⟩ := ih (List.drop n (x :: t)) hdrop
      refine ⟨?_, ?_, ?_⟩
      · simp only [chunksF, List.flatten_cons, ih1, List.take_append_drop]
      · intro b hb
        simp only [chunksF, List.mem_cons] at hb
        rcases hb with rfl | hb
        · simp
        · exact ih2 b hb
      · intro b hb
        simp only [chunksF] at hb
        rcases hrec : chunksF f (List.drop n (x :: t)) n with - | ⟨c, cs⟩
        · rw [hrec] at hb
          simp at hb
        · rw [hrec] at hb
          rw [List.dropLast_cons_of_ne_nil (by simp)] at hb
          rcases List.mem_cons.1 hb with rfl | hb2
          · have hne : List.drop n (x :: t) ≠ [] := by
              intro hcontra
              rw [hcontra] at hrec
              simp [chunksF] at hrec
            have hlen : n < (x :: t).length := by
              by_contra hcon
              exact hne (List.drop_eq_nil_of_le (by omega))
            simp only [List.length_take]
            omega
          · exact ih3 b (by rw [hrec]; exact hb2)

/-- Claim C8 (confirmed): for every buffer and block size `n > 0`,
concatenating the blocks of `chunks` in order reproduces the buffer, no
block exceeds `n` bytes, and every block except possibly the last has
exactly `n` bytes. -/
theorem chunks_spec (lst : List Nat) (n : Nat) (hn : 0 < n) :
    (chunks lst n).flatten = lst ∧
    (∀ b ∈ chunks lst n, b.length ≤ n) ∧
    (∀ b ∈ (chunks lst n).dropLast, b.length = n) := by
  have hne : n ≠ 0 := by omega
  rw [chunks, if_neg hne]
  exact chunksF_spec n hn lst.length lst (Nat.le_refl _)

theorem chunks_spec_witness :
    0 < 2 ∧
    ((chunks [1, 2, 3] 2).flatten = [1, 2, 3] ∧
     (∀ b ∈ chunks [1, 2, 3] 2, b.length ≤ 2) ∧
     (∀ b ∈ (chunks [1, 2, 3] 2).dropLast, b.length = 2)) :=
  ⟨by decide, chunks_spec [1, 2, 3] 2 (by decide)⟩

/-! ### The transfer engine (source lines 128-183)

The serial port is modelled by the trace of operations performed on it
(`Ev`); the device is modelled by the list of responses it will give to
successive buffer queries (`qresps`, one entry per `read_until` call,
already stripped of nothing — the raw bytes) and to successive 1-byte
reads in ENQ/ACK mode (`ereads`, `[]` modelling a read timeout).
Console output (`print`, `draw_progressbar`) touches no device state and
is omitted, as the spec declares progress reporting advisory.  A
`KeyboardInterrupt` is modelled as arriving at a block boundary
(`cancelAt = some k`: the interrupt fires at the start of loop iteration
`k`), which is where the spec says cancellation is acted upon. -/

/-- Python exceptions relevant to the transfer: `ValueError` from `int()`
on a malformed query response, and an I/O error from a port operation. -/
inductive PErr
  | valueError
  | ioError
deriving DecidableEq

/-- One observable port operation. `write` is a control write issued by
the program itself; `writeBlock` is the `port.write(block)` of line 163
(both call the same `port.write`; the tag records which source line
performed the write). -/
inductive Ev
  | write (bs : List Nat)
  | writeBlock (bs : List Nat)
  | read
  | sleepEv
  | resetInput
  | resetOutput
  | closePort
deriving DecidableEq

/-- The `--flow-control` choices. -/
inductive Flow
  | query
  | enqack
  | xonxoff
  | rtscts
  | dsrdtr
deriving DecidableEq

/-- The device model: pending buffer-query responses and pending
ENQ/ACK 1-byte read results. -/
structure Dev where
  qresps : List (List Nat)
  ereads : List (List Nat)
deriving DecidableEq

/-! #### `int()` on the query response -/

/-- Decimal value of a digit string; `Option.none` if empty or any byte is
not a digit. -/
def digitsVal (ds : List Nat) : Option Nat :=
  if ds ≠ [] ∧ ds.all isDigitB then
    some (ds.foldl (fun a d => a * 10 + (d - 48)) 0)
  else Option.none

/-- Strip leading and trailing ASCII whitespace. -/
def stripWS (s : List Nat) : List Nat :=
  ((s.dropWhile isSpaceByte).reverse.dropWhile isSpaceByte).reverse

/-- Python `int()` on a byte string: strip whitespace, optional sign,
then a nonempty run of decimal digits; anything else raises `ValueError`
(modelled by `Option.none`; digit-group underscores are not modelled). -/
def parseDecimal (s : List Nat) : Option Int :=
  match stripWS s with
  | 43 :: ds => (digitsVal ds).map Int.ofNat
  | 45 :: ds => (digitsVal ds).map (fun n => -(n : Int))
  | ds => (digitsVal ds).map Int.ofNat

/-! #### `query_buffer` (source lines 41-47) and the query gate -/

/-- The port operations of one `query_buffer` call, in source order:
`reset_input_buffer()`, `write(escape_seq('B'))`, `read_until(CR)`. -/
def queryBufEvs : List Ev := [Ev.resetInput, Ev.write (escBytes [66] []), Ev.read]

/-- `query_buffer(port)` against one device response: the port operations
performed and the parsed free-byte count (`Option.none` = `ValueError`). -/
def query_buffer (resp : List Nat) : List Ev × Option Int :=
  (queryBufEvs, parseDecimal resp)

/-- Result of the query gate for one block: proceed (with the remaining
device responses), raise, or poll forever (responses exhausted). -/
inductive QRes
  | ok (tr : List Ev) (rem : List (List Nat))
  | err (tr : List Ev) (e : PErr)
  | hung (tr : List Ev)
deriving DecidableEq

/-- The query-mode gate of lines 157-161:
`while query_buffer(port) < len(block): time.sleep(0.1)`. -/
def queryLoop (blockLen : Nat) : List (List Nat) → QRes
  | [] => QRes.hung []
  | r :: rest =>
    match (query_buffer r).2 with
    | Option.none => QRes.err (query_buffer r).1 PErr.valueError
    | some v =>
      if v < (blockLen : Int) then
        match queryLoop blockLen rest with
        | QRes.ok tr rem => QRes.ok ((query_buffer r).1 ++ Ev.sleepEv :: tr) rem
        | QRes.err tr e => QRes.err ((query_buffer r).1 ++ Ev.sleepEv :: tr) e
        | QRes.hung tr => QRes.hung ((query_buffer r).1 ++ Ev.sleepEv :: tr)
      else QRes.ok (query_buffer r).1 rest

/-- The ENQ/ACK wait of lines 154-156:
`while port.read(1) != CHAR_ACK: time.sleep(0.1)`.  Returns the reads and
sleeps performed, and the remaining device reads on success. -/
def ackLoop : List (List Nat) → List Ev × Option (List (List Nat))
  | [] => ([], Option.none)
  | r :: rest =>
    if r = [6] then ([Ev.read], some rest)
    else
      let p := ackLoop rest
      (Ev.read :: Ev.sleepEv :: p.1, p.2)

/-- Result of the per-block flow-control gate. -/
inductive GRes
  | ok (tr : List Ev) (dev : Dev)
  | err (tr : List Ev) (e : PErr)
  | hung (tr : List Ev)
deriving DecidableEq

/-- The per-block gate (lines 151-161): a buffer-query poll loop in
`query` mode, ENQ write plus ACK wait in `enqack` mode, and nothing in
the hardware/XON-XOFF modes. -/
def gateBlock (fc : Flow) (dev : Dev) (b : List Nat) : GRes :=
  match fc with
  | Flow.query =>
    match queryLoop b.length dev.qresps with
    | QRes.ok tr rem => GRes.ok tr { dev with qresps := rem }
    | QRes.err tr e => GRes.err tr e
    | QRes.hung tr => GRes.hung tr
  | Flow.enqack =>
    let p := ackLoop dev.ereads
    match p.2 with
    | some rem => GRes.ok (Ev.write [5] :: p.1) { dev with ereads := rem }
    | Option.none => GRes.hung (Ev.write [5] :: p.1)
  | _ => GRes.ok [] dev

/-- Result of the block loop (the `for` of line 150 inside the `try`). -/
inductive LoopRes
  | done (tr : List Ev) (dev : Dev)
  | cancel (tr : List Ev) (dev : Dev)
  | fatal (tr : List Ev) (e : PErr) (dev : Dev)
  | hung (tr : List Ev)
deriving DecidableEq

def decr : Option Nat → Option Nat
  | Option.none => Option.none
  | some n => some (n - 1)

/-- The block loop: for each block, gate, `port.write(block)`, advance.
`cancelAt = some k` makes the `KeyboardInterrupt` fire at the start of
iteration `k` (a block boundary). -/
def loopBlocks (fc : Flow) : List (List Nat) → Dev → Option Nat → LoopRes
  | blocks, dev, cancelAt =>
    if cancelAt = some 0 then LoopRes.cancel [] dev
    else
      match blocks with
      | [] => LoopRes.done [] dev
      | b :: rest =>
        match gateBlock fc dev b with
        | GRes.ok gtr dev1 =>
          match loopBlocks fc rest dev1 (decr cancelAt) with
          | LoopRes.done tr d => LoopRes.done (gtr ++ Ev.writeBlock b :: tr) d
          | LoopRes.cancel tr d => LoopRes.cancel (gtr ++ Ev.writeBlock b :: tr) d
          | LoopRes.fatal tr e d => LoopRes.fatal (gtr ++ Ev.writeBlock b :: tr) e d
          | LoopRes.hung tr => LoopRes.hung (gtr ++ Ev.writeBlock b :: tr)
        | GRes.err gtr e => LoopRes.fatal gtr e dev
        | GRes.hung gtr => LoopRes.hung gtr

/-- Lines 128-145: settle delay, input flush, handshake reset
(`escape_seq('R')`), then the mode-specific handshake setup
(`@` for hardware flow control, `I`/`N` for XON/XOFF with DC3/DC1,
`I` with ENQ/ACK bytes for enqack, nothing for query). -/
def setupTrace (fc : Flow) (bsz : Nat) : List Ev :=
  [Ev.sleepEv, Ev.resetInput, Ev.write (escBytes [82] [])] ++
    match fc with
    | Flow.rtscts => [Ev.write (escBytes [64] [EscArg.none, EscArg.int 1])]
    | Flow.dsrdtr => [Ev.write (escBytes [64] [EscArg.none, EscArg.int 1])]
    | Flow.xonxoff =>
      [Ev.write (escBytes [73] [EscArg.int bsz, EscArg.none, EscArg.none, EscArg.str [19]]),
       Ev.write (escBytes [78] [EscArg.none, EscArg.str [17]])]
    | Flow.enqack =>
      [Ev.write (escBytes [73] [EscArg.int bsz, EscArg.str [5], EscArg.str [6]])]
    | Flow.query => []

/-- The `except KeyboardInterrupt` handler (lines 167-177): discard
buffered output, send the abort sequence `ESC . K`, wait 100 ms, send the
pen-store command `;SP0;` unless pen-select commands were stripped, then
pen-park and initialize `PU0,0;IN;`. -/
def abortTrace (noPen : Bool) : List Ev :=
  [Ev.resetOutput, Ev.write (escBytes [75] []), Ev.sleepEv] ++
    (if noPen then [] else [Ev.write [59, 83, 80, 48, 59]]) ++
    [Ev.write [80, 85, 48, 44, 48, 59, 73, 78, 59]]

/-- The `finally` block (lines 178-181): handshake reset then
`port.close()`. -/
def teardownEvs : List Ev := [Ev.write (escBytes [82] []), Ev.closePort]

/-- How the process ends.  `raised e ctx` models an exception propagating
to the caller; `ctx` is the implicitly chained earlier exception
(`__context__`) when the teardown itself raised while `e = ioError` was
in flight. -/
inductive Final
  | completed
  | cancelled
  | raised (e : PErr) (ctx : Option PErr)
  | hung
deriving DecidableEq

/-- Lines 128-183 end to end: setup, block loop, `except` handler on
cancellation, `finally` teardown.  `resetWriteFails = true` models the
`port.write(escape_seq('R'))` of the `finally` block raising an I/O
error (in which case `port.close()` is never reached and the new
exception propagates, chaining any in-flight one). -/
def runTransfer (fc : Flow) (noPen : Bool) (bsz : Nat) (hpgl : List Nat) (dev : Dev)
    (cancelAt : Option Nat) (resetWriteFails : Bool) : List Ev × Final :=
  let setup := setupTrace fc bsz
  match loopBlocks fc (chunks hpgl bsz) dev cancelAt with
  | LoopRes.done tr _ =>
    if resetWriteFails then (setup ++ tr, Final.raised PErr.ioError Option.none)
    else (setup ++ tr ++ teardownEvs, Final.completed)
  | LoopRes.cancel tr _ =>
    if resetWriteFails then (setup ++ tr ++ abortTrace noPen, Final.raised PErr.ioError Option.none)
    else (setup ++ tr ++ abortTrace noPen ++ teardownEvs, Final.cancelled)
  | LoopRes.fatal tr e _ =>
    if resetWriteFails then (setup ++ tr, Final.raised PErr.ioError (some e))
    else (setup ++ tr ++ teardownEvs, Final.raised e Option.none)
  | LoopRes.hung tr => (setup ++ tr, Final.hung)

/-! ### The query gate: claims C5 and C9 -/

def QRes.prepend (evs : List Ev) : QRes → QRes
  | QRes.ok tr rem => QRes.ok (evs ++ tr) rem
  | QRes.err tr e => QRes.err (evs ++ tr) e
  | QRes.hung tr => QRes.hung (evs ++ tr)

theorem QRes.prepend_nil (q : QRes) : QRes.prepend [] q = q := by
  cases q <;> simp [QRes.prepend]

/-- Skipping the first `j` insufficient responses: each costs exactly one
`query_buffer` call (one buffer query) and one sleep. -/
theorem queryLoop_skip (blockLen : Nat) :
    ∀ (j : Nat) (qs : List (List Nat)) (hj : j ≤ qs.length),
      (∀ k (hk : k < j), ∃ v,
        parseDecimal (qs.get ⟨k, Nat.lt_of_lt_of_le hk hj⟩) = some v ∧
        v < (blockLen : Int)) →
      queryLoop blockLen qs =
        QRes.prepend ((List.replicate j (queryBufEvs ++ [Ev.sleepEv])).flatten)
          (queryLoop blockLen (qs.drop j)) := by
  intro j
  induction j with
  | zero =>
    intro qs hj hlt
    simp [QRes.prepend_nil]
  | succ j ih =>
    intro qs hj hlt
    match qs with
    | [] => simp at hj
    | q :: rest =>
      obtain ⟨v, hv, hvlt⟩ := hlt 0 (Nat.succ_pos j)
      simp only [List.get] at hv
      have hrec := ih rest (by simpa using hj) (fun k hk => by
        obtain ⟨w, hw, hwlt⟩ := hlt (k + 1) (by omega)
        refine ⟨w, ?_, hwlt⟩
        simpa only [List.get] using hw)
      simp only [queryLoop, query_buffer, hv, if_pos hvlt, List.drop_succ_cons]
      rw [hrec]
      cases queryLoop blockLen (rest.drop j) with
      | ok tr rem =>
        simp [QRes.prepend, List.replicate_succ, List.flatten_cons, queryBufEvs]
      | err tr e =>
        simp [QRes.prepend, List.replicate_succ, List.flatten_cons, queryBufEvs]
      | hung tr =>
        simp [QRes.prepend, List.replicate_succ, List.flatten_cons, queryBufEvs]

theorem count_flatten_replicate (i : Nat) (l : List Ev) (a : Ev) :
    ((List.replicate i l).flatten).count a = i * l.count a := by
  induction i with
  | zero => simp
  | succ i ih =>
    simp [List.replicate_succ, List.flatten_cons, ih, Nat.succ_mul, Nat.add_comm]

/-- Claim C5 (confirmed): for every pending block and device response
sequence whose first sufficient response (value at least the block
length) is at index `i`, the query gate performs exactly one buffer query
per poll attempt — `i + 1` queries in total, each a single
`ESC . B` write — sleeping after each insufficient response, and proceeds
exactly after the response at index `i`, never earlier. -/
theorem queryLoop_first_sufficient (block : List Nat) (qs : List (List Nat)) (i : Nat)
    (hi : i < qs.length)
    (hlt : ∀ k (hk : k < i), ∃ v,
      parseDecimal (qs.get ⟨k, Nat.lt_trans hk hi⟩) = some v ∧
      v < (block.length : Int))
    (hge : ∃ v, parseDecimal (qs.get ⟨i, hi⟩) = some v ∧ (block.length : Int) ≤ v) :
    queryLoop block.length qs =
      QRes.ok ((List.replicate i (queryBufEvs ++ [Ev.sleepEv])).flatten ++ queryBufEvs)
        (qs.drop (i + 1)) ∧
    ((List.replicate i (queryBufEvs ++ [Ev.sleepEv])).flatten ++ queryBufEvs).count
        (Ev.write (escBytes [66] [])) = i + 1 := by
  obtain ⟨v, hv, hvge⟩ := hge
  constructor
  · rw [queryLoop_skip block.length i qs (Nat.le_of_lt hi)
        (fun k hk => hlt k hk)]
    have hdrop : qs.drop i = qs.get ⟨i, hi⟩ :: qs.drop (i + 1) := by
      rw [List.get_eq_getElem]
      exact (List.getElem_cons_drop qs i hi).symm
    rw [hdrop]
    simp only [queryLoop, query_buffer, hv]
    rw [if_neg (by omega)]
    simp [QRes.prepend]
  · rw [List.count_append, count_flatten_replicate]
    have h1 : (queryBufEvs ++ [Ev.sleepEv]).count (Ev.write (escBytes [66] [])) = 1 := by
      decide
    have h2 : queryBufEvs.count (Ev.write (escBytes [66] [])) = 1 := by decide
    rw [h1, h2]
    omega

theorem queryLoop_first_sufficient_witness :
    (1 : Nat) < 2 ∧
    queryLoop (List.length [65, 66, 67, 68, 69])
        [[49, 13], [49, 48, 13]] =
      QRes.ok ((List.replicate 1 (queryBufEvs ++ [Ev.sleepEv])).flatten ++ queryBufEvs)
        (List.drop 2 [[49, 13], [49, 48, 13]]) ∧
    ((List.replicate 1 (queryBufEvs ++ [Ev.sleepEv])).flatten ++ queryBufEvs).count
        (Ev.write (escBytes [66] [])) = 2 :=
  ⟨by decide,
   queryLoop_first_sufficient [65, 66, 67, 68, 69] [[49, 13], [49, 48, 13]] 1
     (by decide)
     (fun k hk => by
       have hk0 : k = 0 := by omega
       subst hk0
       exact ⟨1, show parseDecimal [49, 13] = some 1 by decide, by decide⟩)
     ⟨10, show parseDecimal [49, 48, 13] = some 10 by decide, by decide⟩⟩

theorem queryBufEvs_no_blockwrite : ∀ bs, Ev.writeBlock bs ∉ queryBufEvs := by
  intro bs h
  simp [queryBufEvs] at h

theorem queryTrace_no_blockwrite (j : Nat) :
    ∀ bs, Ev.writeBlock bs ∉
      ((List.replicate j (queryBufEvs ++ [Ev.sleepEv])).flatten ++ queryBufEvs) := by
  intro bs h
  rcases List.mem_append.1 h with h | h
  · obtain ⟨l, hl, hmem⟩ := List.mem_flatten.1 h
    have hle := List.eq_of_mem_replicate hl
    subst hle
    rcases List.mem_append.1 hmem with h2 | h2
    · exact queryBufEvs_no_blockwrite bs h2
    · simp at h2
  · exact queryBufEvs_no_blockwrite bs h

/-- `queryLoop` raises `ValueError` on the first non-numeric response it
polls (after `j` insufficient but well-formed responses). -/
theorem queryLoop_err_at (blockLen : Nat) (qs : List (List Nat)) (j : Nat)
    (hj : j < qs.length)
    (hlt : ∀ k (hk : k < j), ∃ v,
      parseDecimal (qs.get ⟨k, Nat.lt_trans hk hj⟩) = some v ∧
      v < (blockLen : Int))
    (hbad : parseDecimal (qs.get ⟨j, hj⟩) = Option.none) :
    queryLoop blockLen qs =
      QRes.err ((List.replicate j (queryBufEvs ++ [Ev.sleepEv])).flatten ++ queryBufEvs)
        PErr.valueError := by
  rw [queryLoop_skip blockLen j qs (Nat.le_of_lt hj) (fun k hk => hlt k hk)]
  have hdrop : qs.drop j = qs.get ⟨j, hj⟩ :: qs.drop (j + 1) := by
    rw [List.get_eq_getElem]
    exact (List.getElem_cons_drop qs j hj).symm
  rw [hdrop]
  simp only [queryLoop, query_buffer, hbad]
  simp [QRes.prepend]

/-- Unfolding: the interrupt fires at the current block boundary. -/
theorem loopBlocks_cancel0 (fc : Flow) (blocks : List (List Nat)) (dev : Dev) :
    loopBlocks fc blocks dev (some 0) = LoopRes.cancel [] dev := by
  conv_lhs => unfold loopBlocks
  rw [if_pos rfl]

/-- Unfolding: no pending interrupt, no blocks left. -/
theorem loopBlocks_nil (fc : Flow) (dev : Dev) (cancelAt : Option Nat)
    (h : cancelAt ≠ some 0) :
    loopBlocks fc [] dev cancelAt = LoopRes.done [] dev := by
  conv_lhs => unfold loopBlocks
  rw [if_neg h]

/-- Unfolding: no pending interrupt, gate then write then continue. -/
theorem loopBlocks_cons (fc : Flow) (b : List Nat) (rest : List (List Nat))
    (dev : Dev) (cancelAt : Option Nat) (h : cancelAt ≠ some 0) :
    loopBlocks fc (b :: rest) dev cancelAt =
      match gateBlock fc dev b with
      | GRes.ok gtr dev1 =>
        match loopBlocks fc rest dev1 (decr cancelAt) with
        | LoopRes.done tr d => LoopRes.done (gtr ++ Ev.writeBlock b :: tr) d
        | LoopRes.cancel tr d => LoopRes.cancel (gtr ++ Ev.writeBlock b :: tr) d
        | LoopRes.fatal tr e d => LoopRes.fatal (gtr ++ Ev.writeBlock b :: tr) e d
        | LoopRes.hung tr => LoopRes.hung (gtr ++ Ev.writeBlock b :: tr)
      | GRes.err gtr e => LoopRes.fatal gtr e dev
      | GRes.hung gtr => LoopRes.hung gtr := by
  conv_lhs => unfold loopBlocks
  rw [if_neg h]

/-- Claim C9 (confirmed): a buffer-query response that does not parse as a
decimal integer makes `int()` raise `ValueError`, which propagates to the
caller (through the `finally` teardown), and no block write ever happens
in the run: the gate never proceeds past a non-numeric response. -/
theorem query_nonnumeric_fatal (noPen : Bool) (bsz : Nat) (hpgl : List Nat) (dev : Dev)
    (b : List Nat) (rest : List (List Nat)) (j : Nat)
    (hc : chunks hpgl bsz = b :: rest)
    (hj : j < dev.qresps.length)
    (hlt : ∀ k (hk : k < j), ∃ v,
      parseDecimal (dev.qresps.get ⟨k, Nat.lt_trans hk hj⟩) = some v ∧
      v < (b.length : Int))
    (hbad : parseDecimal (dev.qresps.get ⟨j, hj⟩) = Option.none) :
    runTransfer Flow.query noPen bsz hpgl dev Option.none false =
      (setupTrace Flow.query bsz ++
        ((List.replicate j (queryBufEvs ++ [Ev.sleepEv])).flatten ++ queryBufEvs) ++
        teardownEvs,
       Final.raised PErr.valueError Option.none) ∧
    ∀ bs, Ev.writeBlock bs ∉
      (setupTrace Flow.query bsz ++
        ((List.replicate j (queryBufEvs ++ [Ev.sleepEv])).flatten ++ queryBufEvs) ++
        teardownEvs) := by
  have hq := queryLoop_err_at b.length dev.qresps j hj hlt hbad
  have hgate : gateBlock Flow.query dev b =
      GRes.err ((List.replicate j (queryBufEvs ++ [Ev.sleepEv])).flatten ++ queryBufEvs)
        PErr.valueError := by
    simp [gateBlock, hq]
  have hloop : loopBlocks Flow.query (chunks hpgl bsz) dev Option.none =
      LoopRes.fatal
        ((List.replicate j (queryBufEvs ++ [Ev.sleepEv])).flatten ++ queryBufEvs)
        PErr.valueError dev := by
    rw [hc, loopBlocks_cons Flow.query b rest dev Option.none (by simp), hgate]
  constructor
  · simp [runTransfer, hloop]
  · intro bs h
    rcases List.mem_append.1 h with h | h
    · rcases List.mem_append.1 h with h | h
      · simp [setupTrace] at h
      · exact queryTrace_no_blockwrite j bs h
    · simp [teardownEvs] at h

theorem query_nonnumeric_fatal_witness :
    chunks [65, 66] 2 = [[65, 66]] ∧
    runTransfer Flow.query false 2 [65, 66] (Dev.mk [[120, 13]] []) Option.none false =
      (setupTrace Flow.query 2 ++
        ((List.replicate 0 (queryBufEvs ++ [Ev.sleepEv])).flatten ++ queryBufEvs) ++
        teardownEvs,
       Final.raised PErr.valueError Option.none) :=
  ⟨by decide,
   (query_nonnumeric_fatal false 2 [65, 66] (Dev.mk [[120, 13]] []) [65, 66] [] 0
     (by decide) (by decide)
     (fun k hk => absurd hk (Nat.not_lt_zero k))
     (show parseDecimal [120, 13] = Option.none by decide)).1⟩

/-! ### Cancellation (claim C2) and teardown (claim C3) -/

/-- If the first `k` blocks transfer normally, an interrupt at block
boundary `k` cancels the loop with exactly the trace of those `k`
transfers. -/
theorem loopBlocks_cancel_at (fc : Flow) :
    ∀ (k : Nat) (blocks : List (List Nat)) (dev : Dev) (tr : List Ev) (dev1 : Dev),
      k < blocks.length →
      loopBlocks fc (blocks.take k) dev Option.none = LoopRes.done tr dev1 →
      loopBlocks fc blocks dev (some k) = LoopRes.cancel tr dev1 := by
  intro k
  induction k with
  | zero =>
    intro blocks dev tr dev1 hk hpre
    rw [List.take_zero, loopBlocks_nil fc dev Option.none (by simp)] at hpre
    injection hpre with h1 h2
    subst h1
    subst h2
    exact loopBlocks_cancel0 fc blocks dev
  | succ k ih =>
    intro blocks dev tr dev1 hk hpre
    match blocks with
    | [] => simp at hk
    | b :: rest =>
      rw [List.take_succ_cons,
          loopBlocks_cons fc b (rest.take k) dev Option.none (by simp)] at hpre
      rw [loopBlocks_cons fc b rest dev (some (k + 1)) (by simp)]
      cases hg : gateBlock fc dev b with
      | ok gtr dev2 =>
        rw [hg] at hpre
        dsimp only [decr] at hpre ⊢
        cases hr : loopBlocks fc (rest.take k) dev2 Option.none with
        | done tr2 d =>
          rw [hr] at hpre
          dsimp only at hpre
          injection hpre with h1 h2
          subst h1
          subst h2
          have hk2 : k < rest.length := by
            simp only [List.length_cons] at hk
            omega
          simp only [Nat.add_sub_cancel]
          rw [ih rest dev2 tr2 d hk2 hr]
        | cancel tr2 d => rw [hr] at hpre; simp at hpre
        | fatal tr2 e d => rw [hr] at hpre; simp at hpre
        | hung tr2 => rw [hr] at hpre; simp at hpre
      | err gtr e => rw [hg] at hpre; simp at hpre
      | hung gtr => rw [hg] at hpre; simp at hpre

/-- Claim C2 (confirmed): an interrupt at block boundary `k` mid-transfer
(with pen-select enabled and a healthy teardown) produces, after the
trace of the first `k` block transfers, exactly this sequence: discard
buffered output, abort escape sequence `ESC . K`, the 100 ms wait, the
pen-store command `;SP0;`, the pen-park command `PU0,0;` followed by the
initialize command `IN;` (one write), the handshake-reset escape sequence
`ESC . R`, and the port release — and that suffix contains no block
write. -/
theorem cancellation_sequence (fc : Flow) (bsz : Nat) (hpgl : List Nat) (dev : Dev)
    (k : Nat) (tr : List Ev) (dev1 : Dev)
    (hk : k < (chunks hpgl bsz).length)
    (hpre : loopBlocks fc ((chunks hpgl bsz).take k) dev Option.none =
      LoopRes.done tr dev1) :
    runTransfer fc false bsz hpgl dev (some k) false =
      (setupTrace fc bsz ++ tr ++
        [Ev.resetOutput, Ev.write [27, 46, 75], Ev.sleepEv,
         Ev.write [59, 83, 80, 48, 59], Ev.write [80, 85, 48, 44, 48, 59, 73, 78, 59],
         Ev.write [27, 46, 82], Ev.closePort],
       Final.cancelled) ∧
    ∀ bs, Ev.writeBlock bs ∉
      [Ev.resetOutput, Ev.write [27, 46, 75], Ev.sleepEv,
       Ev.write [59, 83, 80, 48, 59], Ev.write [80, 85, 48, 44, 48, 59, 73, 78, 59],
       Ev.write [27, 46, 82], Ev.closePort] := by
  have hloop := loopBlocks_cancel_at fc k (chunks hpgl bsz) dev tr dev1 hk hpre
  constructor
  · simp only [runTransfer, hloop]
    rw [if_neg (by simp)]
    simp [abortTrace, teardownEvs, escBytes, escape_seq]
  · intro bs h
    simp at h

theorem cancellation_sequence_witness :
    (1 < (chunks [65, 66] 1).length ∧
     loopBlocks Flow.rtscts ((chunks [65, 66] 1).take 1) (Dev.mk [] []) Option.none =
       LoopRes.done [Ev.writeBlock [65]] (Dev.mk [] [])) ∧
    runTransfer Flow.rtscts false 1 [65, 66] (Dev.mk [] []) (some 1) false =
      (setupTrace Flow.rtscts 1 ++ [Ev.writeBlock [65]] ++
        [Ev.resetOutput, Ev.write [27, 46, 75], Ev.sleepEv,
         Ev.write [59, 83, 80, 48, 59], Ev.write [80, 85, 48, 44, 48, 59, 73, 78, 59],
         Ev.write [27, 46, 82], Ev.closePort],
       Final.cancelled) :=
  ⟨⟨by decide, by decide⟩,
   (cancellation_sequence Flow.rtscts 1 [65, 66] (Dev.mk [] []) 1
     [Ev.writeBlock [65]] (Dev.mk [] []) (by decide) (by decide)).1⟩

def QRes.trace : QRes → List Ev
  | QRes.ok tr _ => tr
  | QRes.err tr _ => tr
  | QRes.hung tr => tr

def GRes.trace : GRes → List Ev
  | GRes.ok tr _ => tr
  | GRes.err tr _ => tr
  | GRes.hung tr => tr

def LoopRes.trace : LoopRes → List Ev
  | LoopRes.done tr _ => tr
  | LoopRes.cancel tr _ => tr
  | LoopRes.fatal tr _ _ => tr
  | LoopRes.hung tr => tr

theorem queryLoop_no_close (n : Nat) : ∀ qs, Ev.closePort ∉ (queryLoop n qs).trace := by
  intro qs
  induction qs with
  | nil => simp [queryLoop, QRes.trace]
  | cons q rest ih =>
    simp only [queryLoop, query_buffer]
    cases hp : parseDecimal q with
    | none => simp [QRes.trace, queryBufEvs]
    | some v =>
      dsimp only
      by_cases hv : v < (n : Int)
      · rw [if_pos hv]
        cases h : queryLoop n rest with
        | ok tr rem =>
          rw [h] at ih
          simp only [QRes.trace] at ih ⊢
          simpa [queryBufEvs] using ih
        | err tr e =>
          rw [h] at ih
          simp only [QRes.trace] at ih ⊢
          simpa [queryBufEvs] using ih
        | hung tr =>
          rw [h] at ih
          simp only [QRes.trace] at ih ⊢
          simpa [queryBufEvs] using ih
      · rw [if_neg hv]
        simp [QRes.trace, queryBufEvs]

theorem ackLoop_no_close : ∀ l, Ev.closePort ∉ (ackLoop l).1 := by
  intro l
  induction l with
  | nil => simp [ackLoop]
  | cons r rest ih =>
    simp only [ackLoop]
    split
    · simp
    · simpa using ih

theorem gateBlock_no_close (fc : Flow) (dev : Dev) (b : List Nat) :
    Ev.closePort ∉ (gateBlock fc dev b).trace := by
  cases fc with
  | query =>
    simp only [gateBlock]
    have hq := queryLoop_no_close b.length dev.qresps
    cases h : queryLoop b.length dev.qresps with
    | ok tr rem => rw [h] at hq; simpa [GRes.trace, QRes.trace] using hq
    | err tr e => rw [h] at hq; simpa [GRes.trace, QRes.trace] using hq
    | hung tr => rw [h] at hq; simpa [GRes.trace, QRes.trace] using hq
  | enqack =>
    simp only [gateBlock]
    have ha := ackLoop_no_close dev.ereads
    cases h : (ackLoop dev.ereads).2 with
    | some rem => dsimp only; simpa [GRes.trace] using ha
    | none => dsimp only; simpa [GRes.trace] using ha
  | xonxoff => simp [gateBlock, GRes.trace]
  | rtscts => simp [gateBlock, GRes.trace]
  | dsrdtr => simp [gateBlock, GRes.trace]

theorem no_close_seg (gtr tr : List Ev) (b : List Nat)
    (h1 : Ev.closePort ∉ gtr) (h2 : Ev.closePort ∉ tr) :
    Ev.closePort ∉ gtr ++ Ev.writeBlock b :: tr := by
  intro h
  rcases List.mem_append.1 h with h | h
  · exact h1 h
  · rcases List.mem_cons.1 h with h | h
    · simp at h
    · exact h2 h

theorem loopBlocks_no_close (fc : Flow) :
    ∀ blocks dev cancelAt, Ev.closePort ∉ (loopBlocks fc blocks dev cancelAt).trace := by
  intro blocks
  induction blocks with
  | nil =>
    intro dev c
    by_cases hc : c = some 0
    · subst hc
      rw [loopBlocks_cancel0]
      simp [LoopRes.trace]
    · rw [loopBlocks_nil fc dev c hc]
      simp [LoopRes.trace]
  | cons b rest ih =>
    intro dev c
    by_cases hc : c = some 0
    · subst hc
      rw [loopBlocks_cancel0]
      simp [LoopRes.trace]
    · rw [loopBlocks_cons fc b rest dev c hc]
      have hg := gateBlock_no_close fc dev b
      cases hgb : gateBlock fc dev b with
      | ok gtr dev1 =>
        rw [hgb] at hg
        simp only [GRes.trace] at hg
        dsimp only
        have hr := ih dev1 (decr c)
        cases hl : loopBlocks fc rest dev1 (decr c) with
        | done tr d =>
          rw [hl] at hr
          simp only [LoopRes.trace] at hr ⊢
          exact no_close_seg gtr tr b hg hr
        | cancel tr d =>
          rw [hl] at hr
          simp only [LoopRes.trace] at hr ⊢
          exact no_close_seg gtr tr b hg hr
        | fatal tr e d =>
          rw [hl] at hr
          simp only [LoopRes.trace] at hr ⊢
          exact no_close_seg gtr tr b hg hr
        | hung tr =>
          rw [hl] at hr
          simp only [LoopRes.trace] at hr ⊢
          exact no_close_seg gtr tr b hg hr
      | err gtr e =>
        rw [hgb] at hg
        simpa [GRes.trace, LoopRes.trace] using hg
      | hung gtr =>
        rw [hgb] at hg
        simpa [GRes.trace, LoopRes.trace] using hg

theorem setupTrace_no_close (fc : Flow) (bsz : Nat) : Ev.closePort ∉ setupTrace fc bsz := by
  cases fc <;> simp [setupTrace]

theorem abortTrace_no_close (noPen : Bool) : Ev.closePort ∉ abortTrace noPen := by
  cases noPen <;> simp [abortTrace]

/-- Claim C3 (confirmed): on every exit path of the transfer — normal
completion, cancellation, or fatal error (a hang never exits) — the
handshake-reset escape sequence `ESC . R` is written and then the port is
closed, exactly once in the whole run; and if the teardown write itself
fails while a fatal error is in flight, the propagated exception still
carries the original error as its implicitly chained context
(`__context__`), so the earlier fatal error is reported to the caller,
not masked. -/
theorem teardown_every_exit (fc : Flow) (noPen : Bool) (bsz : Nat) (hpgl : List Nat)
    (dev : Dev) (cancelAt : Option Nat) :
    ((runTransfer fc noPen bsz hpgl dev cancelAt false).2 ≠ Final.hung →
      ∃ pre, (runTransfer fc noPen bsz hpgl dev cancelAt false).1 =
          pre ++ [Ev.write [27, 46, 82], Ev.closePort] ∧
        ((runTransfer fc noPen bsz hpgl dev cancelAt false).1).count Ev.closePort = 1) ∧
    (∀ tr e d, loopBlocks fc (chunks hpgl bsz) dev cancelAt = LoopRes.fatal tr e d →
      (runTransfer fc noPen bsz hpgl dev cancelAt true).2 =
        Final.raised PErr.ioError (some e)) := by
  have hesc : escBytes [82] [] = [27, 46, 82] := rfl
  have c3 : teardownEvs.count Ev.closePort = 1 := by decide
  constructor
  · intro hne
    have hnc := loopBlocks_no_close fc (chunks hpgl bsz) dev cancelAt
    have c1 : (setupTrace fc bsz).count Ev.closePort = 0 :=
      List.count_eq_zero.2 (setupTrace_no_close fc bsz)
    cases hl : loopBlocks fc (chunks hpgl bsz) dev cancelAt with
    | done tr d =>
      rw [hl] at hnc
      simp only [LoopRes.trace] at hnc
      have c2 : tr.count Ev.closePort = 0 := List.count_eq_zero.2 hnc
      refine ⟨setupTrace fc bsz ++ tr, ?_, ?_⟩
      · simp [runTransfer, hl, teardownEvs, hesc]
      · simp [runTransfer, hl, List.count_append, c1, c2, c3]
    | cancel tr d =>
      rw [hl] at hnc
      simp only [LoopRes.trace] at hnc
      have c2 : tr.count Ev.closePort = 0 := List.count_eq_zero.2 hnc
      have c4 : (abortTrace noPen).count Ev.closePort = 0 :=
        List.count_eq_zero.2 (abortTrace_no_close noPen)
      refine ⟨setupTrace fc bsz ++ tr ++ abortTrace noPen, ?_, ?_⟩
      · simp [runTransfer, hl, teardownEvs, hesc]
      · simp [runTransfer, hl, List.count_append, c1, c2, c3, c4]
    | fatal tr e d =>
      rw [hl] at hnc
      simp only [LoopRes.trace] at hnc
      have c2 : tr.count Ev.closePort = 0 := List.count_eq_zero.2 hnc
      refine ⟨setupTrace fc bsz ++ tr, ?_, ?_⟩
      · simp [runTransfer, hl, teardownEvs, hesc]
      · simp [runTransfer, hl, List.count_append, c1, c2, c3]
    | hung tr =>
      exact absurd (by simp [runTransfer, hl]) hne
  · intro tr e d hl
    simp [runTransfer, hl]

theorem teardown_every_exit_witness :
    (runTransfer Flow.rtscts false 1 [65] (Dev.mk [] []) Option.none false).2 ≠
        Final.hung ∧
    ∃ pre, (runTransfer Flow.rtscts false 1 [65] (Dev.mk [] []) Option.none false).1 =
        pre ++ [Ev.write [27, 46, 82], Ev.closePort] ∧
      ((runTransfer Flow.rtscts false 1 [65] (Dev.mk [] []) Option.none false).1).count
          Ev.closePort = 1 :=
  ⟨by decide,
   (teardown_every_exit Flow.rtscts false 1 [65] (Dev.mk [] []) Option.none).1
     (by decide)⟩

end Hpplot
